import Mathlib

/-!
Shallow embedding of `spellb.py`, a terminal Spelling-Bee game, together with
proofs of the specification claims about it.

Modelling conventions:
* Python strings are `List Char`; status messages keep the source's `String` text.
* `random.sample(l, k=len(l))` is an explicit parameter `samp : List Char → List Char`,
  constrained to be a permutation where a claim needs it; `random.randint` is an
  explicit index parameter.
* A Python `set` of characters is modelled by `List.dedup` (its enumeration order is
  unspecified in Python, so any fixed enumeration is faithful).
* `sys.exit(1)` validation failures are `Except.error` carrying the printed message.
* Reading `/usr/share/dict/words` is modelled by a `List (List Char)` of stripped
  lines; the `while word := file.readline().strip()` loop stops at the first empty
  line, hence `takeWhile`.
-/

namespace SpellB

/-! ### Character-level groundwork -/

lemma uint32_le_iff (a b : UInt32) : a ≤ b ↔ a.toNat ≤ b.toNat := by
  rw [UInt32.le_def, BitVec.le_def]
  exact Iff.rfl

lemma char_le_iff (a b : Char) : a ≤ b ↔ a.toNat ≤ b.toNat := by
  rw [Char.le_def]
  exact uint32_le_iff _ _

lemma char_toNat_ofNat_valid (n : Nat) (h : n.isValidChar) : (Char.ofNat n).toNat = n := by
  rw [Char.ofNat, dif_pos h]
  rfl

lemma nat_isValidChar_of_le (n : Nat) (h : n ≤ 200) : n.isValidChar := by
  unfold Nat.isValidChar
  omega

lemma isUpper_iff (c : Char) : c.isUpper = true ↔ 65 ≤ c.toNat ∧ c.toNat ≤ 90 := by
  simp only [Char.isUpper, Bool.and_eq_true, decide_eq_true_eq, ge_iff_le]
  constructor
  · rintro ⟨h1, h2⟩
    exact ⟨(uint32_le_iff _ _).1 h1, (uint32_le_iff _ _).1 h2⟩
  · rintro ⟨h1, h2⟩
    exact ⟨(uint32_le_iff _ _).2 h1, (uint32_le_iff _ _).2 h2⟩

lemma isLower_iff (c : Char) : c.isLower = true ↔ 97 ≤ c.toNat ∧ c.toNat ≤ 122 := by
  simp only [Char.isLower, Bool.and_eq_true, decide_eq_true_eq, ge_iff_le]
  constructor
  · rintro ⟨h1, h2⟩
    exact ⟨(uint32_le_iff _ _).1 h1, (uint32_le_iff _ _).1 h2⟩
  · rintro ⟨h1, h2⟩
    exact ⟨(uint32_le_iff _ _).2 h1, (uint32_le_iff _ _).2 h2⟩

lemma isAlpha_iff (c : Char) : c.isAlpha = true ↔ c.isUpper = true ∨ c.isLower = true := by
  simp [Char.isAlpha]

lemma toLower_of_isLower (c : Char) (h : c.isLower = true) : c.toLower = c := by
  rw [isLower_iff] at h
  rw [Char.toLower, if_neg]
  omega

lemma toLower_isLower_of_isUpper (c : Char) (h : c.isUpper = true) :
    (c.toLower).isLower = true := by
  rw [isUpper_iff] at h
  rw [Char.toLower, if_pos (by omega)]
  rw [isLower_iff, char_toNat_ofNat_valid _ (nat_isValidChar_of_le _ (by omega))]
  omega

lemma isLower_toLower_of_isAlpha (c : Char) (h : c.isAlpha = true) :
    (c.toLower).isLower = true := by
  rcases (isAlpha_iff c).1 h with hu | hl
  · exact toLower_isLower_of_isUpper c hu
  · rw [toLower_of_isLower c hl]
    exact hl

lemma not_isUpper_of_isLower (c : Char) (h : c.isLower = true) : c.isUpper = false := by
  rw [isLower_iff] at h
  rcases hu : c.isUpper with _ | _
  · rfl
  · rw [isUpper_iff] at hu
    omega

instance exceptDecEq {ε α : Type} [DecidableEq ε] [DecidableEq α] :
    DecidableEq (Except ε α) := fun x y =>
  match x, y with
  | .error e, .error f =>
    if h : e = f then .isTrue (by rw [h]) else .isFalse (fun hc => h (Except.error.inj hc))
  | .error _, .ok _ => .isFalse (fun hc => Except.noConfusion hc)
  | .ok _, .error _ => .isFalse (fun hc => Except.noConfusion hc)
  | .ok a, .ok b =>
    if h : a = b then .isTrue (by rw [h]) else .isFalse (fun hc => h (Except.ok.inj hc))

/-! ### Source constants (`spellb.py` top level) -/

def GREEN : String := "\x1b[92m"

def YELLOW : String := "\x1b[93m"

def ENDCLR : String := "\x1b[0m"

/-- The character class of the ad-hoc vowel filter regex `[aeiouy]`. -/
def vowelsY : List Char := ['a', 'e', 'i', 'o', 'u', 'y']

/-- `re.match(r'^[a-z]+$', word)`: a nonempty all-lowercase-ASCII word. -/
def matchLowerWord (w : List Char) : Bool := !w.isEmpty && w.all Char.isLower

/-- `re.search(r'[aeiouy]', word)`: the word has at least one vowel-or-y. -/
def hasVowelY (w : List Char) : Bool := w.any (vowelsY.contains ·)

/-- `re.match(f'^[{letter_pool}]+$', word)`: nonempty, every character drawn
from the pool's letters. -/
def matchPoolWord (pool w : List Char) : Bool := !w.isEmpty && w.all (pool.contains ·)

/-! ### `SpellB.evaluate_word` -/

def msgInvalidChars : String := "Invalid characters in word"

def msgCenterMissing : String := "Center letter not used"

def msgTooShort : String := "Too short"

def msgNotAWord : String := "Invalid word"

def msgAlreadyFound : String := "Already found"

def msgPangram : String := GREEN ++ "Pangram!" ++ ENDCLR

/-- `SpellB.evaluate_word` (spellb.py:100-120), with the session fields
(`letter_pool`, `word_list`, `found_words`) passed explicitly. -/
def evaluate_word (letter_pool : List Char) (word_list : List (List Char))
    (found_words : List (List Char)) (word : List Char) : Nat × String :=
  if matchLowerWord word = false then (0, msgInvalidChars)
  else if letter_pool.headI ∉ word then (0, msgCenterMissing)
  else if word.length < 4 then (0, msgTooShort)
  else if word ∉ word_list then (0, msgNotAWord)
  else if word ∈ found_words then (0, msgAlreadyFound)
  else
    let value := if word.length = 4 then 1 else word.length
    if 7 ≤ word.length ∧ ∀ c ∈ letter_pool, c ∈ word then
      (value + 7, msgPangram)
    else (value, "")

/-! ### `SpellB.prepare_word_list` -/

/-- The `while word := file.readline().strip():` idiom: consume stripped lines
until the first empty one. -/
def readLines (dictionary : List (List Char)) : List (List Char) :=
  dictionary.takeWhile (fun w => !w.isEmpty)

/-- `SpellB.prepare_word_list` (spellb.py:166-180), with the dictionary file's
stripped lines passed explicitly. -/
def prepare_word_list (letter_pool : List Char) (dictionary : List (List Char)) :
    List (List Char) :=
  (readLines dictionary).filter (fun word =>
    !(decide (word.length < 4) || !word.contains letter_pool.headI)
      && matchPoolWord letter_pool word && hasVowelY word)

/-! ### `SpellB.validate_letter_pool` -/

def msgPoolInvalidChars : String :=
  "Invalid characters in letter pool. Only English letters are allowed of which at most one can be uppercase."

def msgPoolAmbiguous : String := "Invalid letter pool format. At most one letter can be uppercase."

def msgPoolWrongCount : String := "A letter pool must contain exactly seven unique letters."

/-- The center selection of `validate_letter_pool`: the first uppercase letter
(lowered) when any is present, otherwise the first character of the lowercased
input. -/
def centerOf (input : List Char) : Char :=
  match input.filter Char.isUpper with
  | [] => (input.map Char.toLower).headI
  | c :: _ => c.toLower

/-- `SpellB.validate_letter_pool` (spellb.py:141-164). `pool.isalpha() and
pool.isascii()` is per-character ASCII alphabeticity on a nonempty string;
`re.findall(r'[A-Z]', pool)` is `filter Char.isUpper`; the Python `set` is
`List.dedup`; each `sys.exit(1)` is an `Except.error` with the printed text. -/
def validate_letter_pool (pool : List Char) : Except String (List Char) :=
  if ¬(pool ≠ [] ∧ ∀ c ∈ pool, c.isAlpha = true) then .error msgPoolInvalidChars
  else if 1 < (pool.filter Char.isUpper).length then .error msgPoolAmbiguous
  else if ((pool.map Char.toLower).dedup).length ≠ 7 then .error msgPoolWrongCount
  else .ok (centerOf pool :: ((pool.map Char.toLower).dedup).erase (centerOf pool))

/-! ### `SpellB.generate_letter_pool` -/

/-- The candidate test of `generate_letter_pool`'s scan (spellb.py:126-135):
skip words shorter than 7, without exactly 7 distinct letters, without a
vowel-or-y, or with a character outside a-z; keep `set(word)`, i.e.
`word.dedup`. -/
def poolCandidate (word : List Char) : Option (List Char) :=
  if word.length < 7 then none
  else if word.dedup.length ≠ 7 then none
  else if hasVowelY word = false then none
  else if ¬(∀ c ∈ word, c.isLower = true) then none
  else some word.dedup

/-- `SpellB.generate_letter_pool` (spellb.py:122-139). The dictionary's stripped
lines, the `random.randint` pick and the `random.sample` reordering are passed
explicitly; an out-of-range pick (in particular an empty candidate list, which
makes the Python raise) is `none`. -/
def generate_letter_pool (dictionary : List (List Char)) (pick : Nat)
    (samp : List Char → List Char) : Option (List Char) :=
  match ((readLines dictionary).filterMap poolCandidate)[pick]? with
  | none => none
  | some cand => some (samp cand)

/-! ### Commands and `SpellB.execute_command` -/

structure Command where
  name : List Char
  hidden : Bool
deriving DecidableEq, Repr

/-- The `COMMANDS` table (spellb.py:9-16); the help strings play no role in
resolution and are omitted. -/
def COMMANDS : List Command :=
  [⟨"cheat".toList, true⟩, ⟨"help".toList, false⟩, ⟨"list".toList, false⟩,
   ⟨"score".toList, false⟩, ⟨"show".toList, false⟩, ⟨"shuffle".toList, false⟩,
   ⟨"quit".toList, false⟩, ⟨"target".toList, false⟩]

inductive CmdResolution
  | invalid
  | ambiguous (candidates : List (List Char))
  | matched (name : List Char)
deriving DecidableEq, Repr

/-- The candidate-collecting loop of `SpellB.execute_command` (spellb.py:59-67):
a hidden command matching exactly replaces the accumulator and stops the scan;
a visible command is appended whenever the token is a prefix of its name. -/
def collectCandidates (tok : List Char) : List Command → List (List Char) → List (List Char)
  | [], acc => acc
  | cmd :: rest, acc =>
    if cmd.hidden then
      if cmd.name = tok then [tok]
      else collectCandidates tok rest acc
    else
      if tok.isPrefixOf cmd.name then collectCandidates tok rest (acc ++ [cmd.name])
      else collectCandidates tok rest acc

/-- The resolution part of `SpellB.execute_command` (spellb.py:58-73): no
candidate is `Invalid command`, several are `Ambiguous command`, one is chosen. -/
def resolveCommand (cmds : List Command) (tok : List Char) : CmdResolution :=
  match collectCandidates tok cmds [] with
  | [] => .invalid
  | [n] => .matched n
  | cs => .ambiguous cs

/-! ### Session state and the `__main__` loop -/

/-- The mutable fields of a `SpellB` instance. -/
structure Game where
  found_words : List (List Char)
  letter_pool : List Char
  score : Nat
  word_list : List (List Char)
  best_possible_score : Nat
deriving DecidableEq, Repr

/-- `SpellB.__init__` (spellb.py:43-56) after the pool is fixed: build the word
list, then accumulate `best_possible_score` over it with `found_words` still
empty. -/
def mkGame (letter_pool : List Char) (dictionary : List (List Char)) : Game :=
  let wl := prepare_word_list letter_pool dictionary
  { found_words := []
    letter_pool := letter_pool
    score := 0
    word_list := wl
    best_possible_score :=
      wl.foldl (fun acc w => acc + (evaluate_word letter_pool wl [] w).1) 0 }

/-- The state effect of `SpellB.execute_command` (spellb.py:58-93): only
`shuffle` mutates the session (reordering the petal letters via `samp`), only
`quit` stops the loop (second component `false`); every other resolved command,
and both resolution failures, just print. -/
def execute_command (g : Game) (tok : List Char) (samp : List Char → List Char) :
    Game × Bool :=
  match resolveCommand COMMANDS tok with
  | .invalid => (g, true)
  | .ambiguous _ => (g, true)
  | .matched n =>
    if n = "shuffle".toList then
      ({ g with letter_pool := g.letter_pool.headI :: samp g.letter_pool.tail }, true)
    else if n = "quit".toList then
      (g, false)
    else
      (g, true)

/-- One iteration of the `__main__` loop (spellb.py:201-211): lowercase the
line; an empty line ends the loop; a line starting with `:` is a command on the
rest; otherwise evaluate the word and, on a nonzero score, credit it and record
the word. -/
def loopStep (g : Game) (raw : List Char) (samp : List Char → List Char) : Game × Bool :=
  let user_input := raw.map Char.toLower
  if user_input = [] then (g, false)
  else if user_input.headI = ':' then execute_command g user_input.tail samp
  else
    let r := evaluate_word g.letter_pool g.word_list g.found_words user_input
    if r.1 ≠ 0 then
      ({ g with
          score := g.score + r.1
          found_words := g.found_words ++ [user_input] }, true)
    else (g, true)

/-! ### Shared helper lemmas -/

/-- The spec's wording of a qualifying SolutionSet entry for C3: length at
least 4, containing the center letter (pool position 0), every character among
the pool letters, and at least one vowel-or-y. -/
def specSolutionWord (pool w : List Char) : Prop :=
  4 ≤ w.length ∧ pool.headI ∈ w ∧ (∀ c ∈ w, c ∈ pool) ∧ ∃ c ∈ w, c ∈ vowelsY

instance (pool w : List Char) : Decidable (specSolutionWord pool w) := by
  unfold specSolutionWord
  infer_instance

lemma matchPoolWord_iff (pool w : List Char) :
    matchPoolWord pool w = true ↔ w ≠ [] ∧ ∀ c ∈ w, c ∈ pool := by
  simp [matchPoolWord, List.isEmpty_iff]

lemma hasVowelY_iff (w : List Char) : hasVowelY w = true ↔ ∃ c ∈ w, c ∈ vowelsY := by
  simp [hasVowelY]

lemma matchLowerWord_iff (w : List Char) :
    matchLowerWord w = true ↔ w ≠ [] ∧ ∀ c ∈ w, c.isLower = true := by
  simp [matchLowerWord, List.isEmpty_iff]

lemma readLines_eq_self (d : List (List Char)) (h : ∀ w ∈ d, w ≠ []) : readLines d = d := by
  induction d with
  | nil => rfl
  | cons w rest ih =>
    have hw : w.isEmpty = false := by
      simpa [List.isEmpty_iff] using h w (List.mem_cons_self _ _)
    have ih2 := ih (fun x hx => h x (List.mem_cons_of_mem _ hx))
    unfold readLines at ih2 ⊢
    rw [List.takeWhile_cons, hw]
    simpa using ih2

lemma code_filter_iff (pool w : List Char) (hw : w ≠ []) :
    (!(decide (w.length < 4) || !w.contains pool.headI)
        && matchPoolWord pool w && hasVowelY w) = true
      ↔ specSolutionWord pool w := by
  simp [matchPoolWord, hasVowelY, specSolutionWord, hw, Nat.not_lt, and_assoc]

lemma foldl_add_eq_sum {α : Type} (f : α → Nat) :
    ∀ (l : List α) (a : Nat), l.foldl (fun acc x => acc + f x) a = a + (l.map f).sum := by
  intro l
  induction l with
  | nil => simp
  | cons x rest ih =>
    intro a
    simp [ih, Nat.add_assoc]

/-! ### C1: rejection order in `evaluate_word` -/

/-- C1 counterexample: the claim's "for every word w, EvaluateWord(w, pool, ∅)
followed by EvaluateWord(w, pool, {w}) yields (0, AlreadyFound) on the second
call" fails for a word rejected before the AlreadyFound check: "tzzz" is not in
the solution set, so the second call still answers NotAWord. -/
theorem evaluate_word_repeat_counterexample :
    evaluate_word "taserin".toList ["tears".toList] ["tzzz".toList] "tzzz".toList
      ≠ (0, msgAlreadyFound) := by decide

/-- C1 (amended): `evaluate_word` checks its rejection conditions in the fixed
order InvalidCharacters, CenterLetterMissing, TooShort, NotAWord, AlreadyFound,
the first failure short-circuiting with 0 points; and for every word whose
first evaluation against an empty history earns nonzero points, re-evaluating
it with itself recorded as found yields (0, AlreadyFound). -/
theorem evaluate_word_check_order :
    (∀ pool wl found w, matchLowerWord w = false →
        evaluate_word pool wl found w = (0, msgInvalidChars))
    ∧ (∀ pool wl found w, matchLowerWord w = true → pool.headI ∉ w →
        evaluate_word pool wl found w = (0, msgCenterMissing))
    ∧ (∀ pool wl found w, matchLowerWord w = true → pool.headI ∈ w → w.length < 4 →
        evaluate_word pool wl found w = (0, msgTooShort))
    ∧ (∀ pool wl found w, matchLowerWord w = true → pool.headI ∈ w → 4 ≤ w.length →
        w ∉ wl → evaluate_word pool wl found w = (0, msgNotAWord))
    ∧ (∀ pool wl found w, matchLowerWord w = true → pool.headI ∈ w → 4 ≤ w.length →
        w ∈ wl → w ∈ found → evaluate_word pool wl found w = (0, msgAlreadyFound))
    ∧ (∀ pool wl w, (evaluate_word pool wl [] w).1 ≠ 0 →
        evaluate_word pool wl [w] w = (0, msgAlreadyFound)) := by
  refine ⟨?_, ?_, ?_, ?_, ?_, ?_⟩
  · intro pool wl found w h
    simp [evaluate_word, h]
  · intro pool wl found w h1 h2
    simp [evaluate_word, h1, h2]
  · intro pool wl found w h1 h2 h3
    simp [evaluate_word, h1, h2, h3]
  · intro pool wl found w h1 h2 h3 h4
    simp [evaluate_word, h1, h2, Nat.not_lt.mpr h3, h4]
  · intro pool wl found w h1 h2 h3 h4 h5
    simp [evaluate_word, h1, h2, Nat.not_lt.mpr h3, h4, h5]
  · intro pool wl w h
    by_cases h1 : matchLowerWord w = true
    case neg =>
      rw [Bool.not_eq_true] at h1
      exact absurd (by simp [evaluate_word, h1]) h
    by_cases h2 : pool.headI ∈ w
    case neg => exact absurd (by simp [evaluate_word, h1, h2]) h
    by_cases h3 : w.length < 4
    case pos => exact absurd (by simp [evaluate_word, h1, h2, h3]) h
    rw [Nat.not_lt] at h3
    by_cases h4 : w ∈ wl
    case neg => exact absurd (by simp [evaluate_word, h1, h2, Nat.not_lt.mpr h3, h4]) h
    simp [evaluate_word, h1, h2, Nat.not_lt.mpr h3, h4]

/-- Witness for the amended C1 at a concrete input: "tears" scores on the first
call, and re-evaluating with it recorded as found answers AlreadyFound. -/
theorem evaluate_word_check_order_witness :
    evaluate_word "taserin".toList ["tears".toList] ["tears".toList] "tears".toList
      = (0, msgAlreadyFound) :=
  evaluate_word_check_order.2.2.2.2.2 "taserin".toList ["tears".toList] "tears".toList
    (by decide)

/-! ### C2: scoring and the pangram bonus -/

/-- C2: a word passing every rejection check scores 1 point at length 4 and
`length` points beyond; when additionally the length is at least 7 and every
pool letter occurs in it, 7 bonus points are added and the message carries the
"Pangram!" annotation; a 7-letter word missing a pool letter gets no bonus. -/
theorem evaluate_word_scoring :
    ∀ pool wl found w, matchLowerWord w = true → pool.headI ∈ w → 4 ≤ w.length →
      w ∈ wl → w ∉ found →
      ((w.length = 4 → evaluate_word pool wl found w = (1, ""))
      ∧ (4 < w.length → ¬(7 ≤ w.length ∧ ∀ c ∈ pool, c ∈ w) →
          evaluate_word pool wl found w = (w.length, ""))
      ∧ ((7 ≤ w.length ∧ ∀ c ∈ pool, c ∈ w) →
          evaluate_word pool wl found w = (w.length + 7, msgPangram))
      ∧ (w.length = 7 → (∃ c ∈ pool, c ∉ w) →
          evaluate_word pool wl found w = (7, ""))) := by
  intro pool wl found w h1 h2 h3 h4 h5
  refine ⟨?_, ?_, ?_, ?_⟩
  · intro hlen
    have hnp : ¬(7 ≤ w.length ∧ ∀ c ∈ pool, c ∈ w) := by
      rintro ⟨h7, -⟩
      omega
    simp [evaluate_word, h1, h2, Nat.not_lt.mpr h3, h4, h5, hlen, hnp]
  · intro hlen hnp
    simp [evaluate_word, h1, h2, Nat.not_lt.mpr h3, h4, h5, Nat.ne_of_gt hlen, hnp]
  · rintro ⟨h7, hall⟩
    have hne : w.length ≠ 4 := by omega
    simp [evaluate_word, h1, h2, Nat.not_lt.mpr h3, h4, h5, hne, h7, hall]
    exact hall
  · intro hlen hmiss
    have hnp : ¬(7 ≤ w.length ∧ ∀ c ∈ pool, c ∈ w) := by
      rintro ⟨-, hall⟩
      obtain ⟨c, hc, hcw⟩ := hmiss
      exact hcw (hall c hc)
    simp [evaluate_word, h1, h2, Nat.not_lt.mpr h3, h4, h5, hlen, hnp]
    exact hmiss

/-- Witness for C2 at a concrete input: "retains" (length 7, all pool letters)
scores 7 + 7 with the pangram annotation. -/
theorem evaluate_word_scoring_witness :
    evaluate_word "taserin".toList ["retains".toList] [] "retains".toList
      = ("retains".toList.length + 7, msgPangram) :=
  (evaluate_word_scoring "taserin".toList ["retains".toList] [] "retains".toList
    (by decide) (by decide) (by decide) (by decide) (by decide)).2.2.1 (by decide)

/-! ### C3: the solution set is exactly the qualifying dictionary entries -/

/-- C3: for a dictionary of nonempty entries (the data model's words),
`prepare_word_list` returns exactly the entries, in dictionary order, of
length at least 4 that contain the center letter, use only pool letters, and
contain a vowel-or-y; nothing else is included and nothing qualifying is
omitted. -/
theorem prepare_word_list_spec :
    ∀ pool dict, (∀ w ∈ dict, w ≠ []) →
      prepare_word_list pool dict
          = dict.filter (fun w => decide (specSolutionWord pool w))
        ∧ ∀ w, w ∈ prepare_word_list pool dict ↔ w ∈ dict ∧ specSolutionWord pool w := by
  intro pool dict h
  have hfe : prepare_word_list pool dict
      = dict.filter (fun w => decide (specSolutionWord pool w)) := by
    unfold prepare_word_list
    rw [readLines_eq_self dict h]
    apply List.filter_congr
    intro w hwmem
    have hw := h w hwmem
    rcases hb : decide (specSolutionWord pool w) with _ | _
    · rw [decide_eq_false_iff_not] at hb
      rw [← Bool.not_eq_true]
      intro hc
      exact hb ((code_filter_iff pool w hw).1 hc)
    · rw [decide_eq_true_eq] at hb
      exact (code_filter_iff pool w hw).2 hb
  refine ⟨hfe, fun w => ?_⟩
  rw [hfe, List.mem_filter, decide_eq_true_eq]

/-- Witness for C3 at a concrete dictionary: only "tears" and "train" qualify
for the pool "taserin". -/
theorem prepare_word_list_spec_witness :
    prepare_word_list "taserin".toList
        ["tears".toList, "cat".toList, "zebra".toList, "train".toList]
      = ["tears".toList, "cat".toList, "zebra".toList, "train".toList].filter
          (fun w => decide (specSolutionWord "taserin".toList w)) :=
  (prepare_word_list_spec "taserin".toList
    ["tears".toList, "cat".toList, "zebra".toList, "train".toList] (by decide)).1

/-! ### C4: the best possible score is a static sum over the solution set -/

/-- C4: at session start `best_possible_score` equals the sum over the solution
set of the points `evaluate_word` yields with an empty found-words history, and
no later loop iteration (word submission or command) ever changes it. -/
theorem best_possible_score_spec :
    (∀ pool dict,
        (mkGame pool dict).best_possible_score
          = ((prepare_word_list pool dict).map
              (fun w => (evaluate_word pool (prepare_word_list pool dict) [] w).1)).sum)
    ∧ ∀ g raw samp, ((loopStep g raw samp).1).best_possible_score = g.best_possible_score := by
  constructor
  · intro pool dict
    unfold mkGame
    simp only
    rw [foldl_add_eq_sum]
    simp
  · intro g raw samp
    unfold loopStep execute_command
    rcases hr : resolveCommand COMMANDS ((raw.map Char.toLower).tail) with _ | cs | n <;>
      simp only [hr] <;> (repeat' split) <;> rfl

/-! ### C7 and C10: command resolution -/


def demoCommands : List Command := [⟨"help".toList, false⟩, ⟨"list".toList, false⟩]

def visibleMatches (cmds : List Command) (tok : List Char) : List (List Char) :=
  ((cmds.filter (fun c => !c.hidden)).filter (fun c => tok.isPrefixOf c.name)).map Command.name

lemma collectCandidates_cons (tok : List Char) (cmd : Command) (rest : List Command)
    (acc : List (List Char)) :
    collectCandidates tok (cmd :: rest) acc
      = if cmd.hidden then (if cmd.name = tok then [tok] else collectCandidates tok rest acc)
        else (if tok.isPrefixOf cmd.name then collectCandidates tok rest (acc ++ [cmd.name])
              else collectCandidates tok rest acc) := rfl

lemma collect_no_hidden (tok : List Char) :
    ∀ (cmds : List Command), (∀ c ∈ cmds, c.hidden = false) → ∀ acc,
      collectCandidates tok cmds acc
        = acc ++ (cmds.filter (fun c => tok.isPrefixOf c.name)).map Command.name := by
  intro cmds
  induction cmds with
  | nil =>
    intro h acc
    simp [collectCandidates]
  | cons c rest ih =>
    intro h acc
    have hc : c.hidden = false := h c (List.mem_cons_self _ _)
    have hrest := ih (fun x hx => h x (List.mem_cons_of_mem _ hx))
    rw [collectCandidates_cons, hc]
    simp only [Bool.false_eq_true, if_false, List.filter_cons]
    rcases hp : tok.isPrefixOf c.name with _ | _
    · simp [hp, hrest]
    · simp [hp, hrest]

lemma collect_COMMANDS (tok : List Char) :
    collectCandidates tok COMMANDS []
      = if "cheat".toList = tok then [tok] else visibleMatches COMMANDS tok := by
  have hsplit : COMMANDS = (⟨"cheat".toList, true⟩ : Command) :: COMMANDS.tail := rfl
  conv_lhs => rw [hsplit]
  rw [collectCandidates_cons]
  dsimp only
  rw [if_pos rfl]
  by_cases h : "cheat".toList = tok
  · rw [if_pos h, if_pos h]
  · rw [if_neg h, if_neg h]
    rw [collect_no_hidden tok COMMANDS.tail (by decide) []]
    unfold visibleMatches
    rw [show List.filter (fun c => !c.hidden) COMMANDS = COMMANDS.tail from rfl]
    simp

lemma mem_visibleMatches_ne_cheat (tok x : List Char) :
    x ∈ visibleMatches COMMANDS tok → x ≠ "cheat".toList := by
  intro hx
  unfold visibleMatches at hx
  simp only [List.mem_map, List.mem_filter] at hx
  obtain ⟨c, ⟨⟨hmem, hvis⟩, hpre⟩, hname⟩ := hx
  subst hname
  simp only [COMMANDS, List.mem_cons, List.not_mem_nil, or_false] at hmem
  rcases hmem with h | h | h | h | h | h | h | h <;> subst h
  · exact absurd hvis (by decide)
  all_goals decide

/-- C7: command resolution selects the hidden "cheat" command only on an exact
full-name match; otherwise the result is determined by the visible commands the
token is a prefix of — none is InvalidCommand, several is AmbiguousCommand
listing them all, exactly one selects it. With visible commands help and list,
"h" resolves to help, "l" to list, "x" to InvalidCommand. -/
theorem resolveCommand_spec :
    (∀ tok : List Char,
        resolveCommand COMMANDS tok =
          if "cheat".toList = tok then .matched tok
          else match visibleMatches COMMANDS tok with
            | [] => .invalid
            | [n] => .matched n
            | cs => .ambiguous cs)
    ∧ (∀ tok n, resolveCommand COMMANDS tok = .matched n → n = "cheat".toList →
        tok = "cheat".toList)
    ∧ resolveCommand demoCommands "h".toList = .matched "help".toList
    ∧ resolveCommand demoCommands "l".toList = .matched "list".toList
    ∧ resolveCommand demoCommands "x".toList = .invalid := by
  have hchar : ∀ tok : List Char,
      resolveCommand COMMANDS tok =
        if "cheat".toList = tok then .matched tok
        else match visibleMatches COMMANDS tok with
          | [] => .invalid
          | [n] => .matched n
          | cs => .ambiguous cs := by
    intro tok
    unfold resolveCommand
    rw [collect_COMMANDS tok]
    by_cases h : "cheat".toList = tok
    · rw [if_pos h, if_pos h]
    · rw [if_neg h, if_neg h]
  refine ⟨hchar, ?_, by decide, by decide, by decide⟩
  intro tok n hres hn
  subst hn
  by_cases h : "cheat".toList = tok
  · exact h.symm
  · exfalso
    rw [hchar tok, if_neg h] at hres
    rcases hvm : visibleMatches COMMANDS tok with _ | ⟨m, rest⟩
    · rw [hvm] at hres
      exact CmdResolution.noConfusion hres
    rcases rest with _ | ⟨m2, rest2⟩
    · rw [hvm] at hres
      have hm : m = "cheat".toList := CmdResolution.matched.inj hres
      exact mem_visibleMatches_ne_cheat tok m (hvm ▸ List.mem_singleton_self m) hm
    · rw [hvm] at hres
      exact CmdResolution.noConfusion hres

/-- Witness for C7: applying the only-exact-match-selects-cheat conjunct at the
concrete token "cheat". -/
theorem resolveCommand_spec_witness : "cheat".toList = "cheat".toList :=
  resolveCommand_spec.2.1 "cheat".toList "cheat".toList (by decide) rfl

/-- C10: the empty command token (an input line of just ":") matches every
visible command by the empty prefix, so resolution is AmbiguousCommand listing
all seven visible command names — never InvalidCommand — and the loop leaves
the session unchanged and continues. -/
theorem empty_token_ambiguous :
    resolveCommand COMMANDS [] = .ambiguous
        ["help".toList, "list".toList, "score".toList, "show".toList,
         "shuffle".toList, "quit".toList, "target".toList]
      ∧ resolveCommand COMMANDS [] ≠ .invalid
      ∧ ∀ g samp, loopStep g [':'] samp = (g, true) := by
  refine ⟨by decide, by decide, ?_⟩
  intro g samp
  unfold loopStep
  rw [show List.map Char.toLower [':'] = [':'] from by decide]
  rw [if_neg (by decide), if_pos (by decide)]
  unfold execute_command
  rw [show resolveCommand COMMANDS [':'].tail = .ambiguous
      ["help".toList, "list".toList, "score".toList, "show".toList,
       "shuffle".toList, "quit".toList, "target".toList] from by decide]

/-! ### C6: soft rejections leave the session unchanged -/

/-- C6: a loop iteration whose word submission evaluates to 0 points, or whose
command token resolves to InvalidCommand or AmbiguousCommand, returns the
session state (score, found words, pool, solution set, best possible score)
unchanged and keeps the loop running. -/
theorem soft_rejections_no_op :
    ∀ g raw samp,
      ((raw.map Char.toLower ≠ [] → (raw.map Char.toLower).headI ≠ ':' →
          (evaluate_word g.letter_pool g.word_list g.found_words (raw.map Char.toLower)).1 = 0 →
          loopStep g raw samp = (g, true))
      ∧ (raw.map Char.toLower ≠ [] → (raw.map Char.toLower).headI = ':' →
          (resolveCommand COMMANDS ((raw.map Char.toLower).tail) = .invalid ∨
            ∃ cs, resolveCommand COMMANDS ((raw.map Char.toLower).tail) = .ambiguous cs) →
          loopStep g raw samp = (g, true))) := by
  intro g raw samp
  constructor
  · intro h1 h2 h3
    unfold loopStep
    rw [if_neg h1, if_neg h2]
    simp [h3]
  · intro h1 h2 hres
    unfold loopStep
    rw [if_neg h1, if_pos h2]
    unfold execute_command
    rcases hres with hres | ⟨cs, hres⟩ <;> rw [hres]

/-- Witness for C6: the rejected word "tzzz" (center letter missing, not in the
solution set) leaves a concrete session untouched. -/
theorem soft_rejections_no_op_witness :
    loopStep (mkGame "taserin".toList ["tears".toList]) "tzzz".toList id
      = (mkGame "taserin".toList ["tears".toList], true) :=
  (soft_rejections_no_op (mkGame "taserin".toList ["tears".toList]) "tzzz".toList id).1
    (by decide) (by decide) (by decide)

/-! ### C5, C8, C9: pool validation, idempotence, and the pool invariant -/


lemma headI_mem {l : List Char} (h : l ≠ []) : l.headI ∈ l := by
  rcases l with _ | ⟨a, t⟩
  · exact absurd rfl h
  · exact List.mem_cons_self _ _

lemma validate_ok_inv (input p : List Char) (h : validate_letter_pool input = .ok p) :
    (input ≠ [] ∧ ∀ c ∈ input, c.isAlpha = true)
    ∧ (input.filter Char.isUpper).length ≤ 1
    ∧ ((input.map Char.toLower).dedup).length = 7
    ∧ p = centerOf input :: ((input.map Char.toLower).dedup).erase (centerOf input) := by
  unfold validate_letter_pool at h
  by_cases h1 : ¬(input ≠ [] ∧ ∀ c ∈ input, c.isAlpha = true)
  · rw [if_pos h1] at h
    exact Except.noConfusion h
  rw [if_neg h1] at h
  by_cases h2 : 1 < (input.filter Char.isUpper).length
  · rw [if_pos h2] at h
    exact Except.noConfusion h
  rw [if_neg h2] at h
  by_cases h3 : ((input.map Char.toLower).dedup).length ≠ 7
  · rw [if_pos h3] at h
    exact Except.noConfusion h
  rw [if_neg h3] at h
  exact ⟨not_not.mp h1, Nat.not_lt.mp h2, not_ne_iff.mp h3, (Except.ok.inj h).symm⟩

lemma centerOf_mem_dedup (input : List Char) (hne : input ≠ []) :
    centerOf input ∈ (input.map Char.toLower).dedup := by
  rw [List.mem_dedup]
  unfold centerOf
  rcases hcaps : input.filter Char.isUpper with _ | ⟨c, rest⟩
  · apply headI_mem
    simpa using hne
  · have hc : c ∈ input.filter Char.isUpper := by
      rw [hcaps]
      exact List.mem_cons_self _ _
    exact List.mem_map_of_mem _ (List.mem_of_mem_filter hc)

lemma lowered_dedup_isLower (input : List Char) (halpha : ∀ c ∈ input, c.isAlpha = true) :
    ∀ x ∈ (input.map Char.toLower).dedup, x.isLower = true := by
  intro x hx
  rw [List.mem_dedup] at hx
  obtain ⟨c, hc, rfl⟩ := List.mem_map.mp hx
  exact isLower_toLower_of_isAlpha c (halpha c hc)

lemma validate_ok_props (input p : List Char) (h : validate_letter_pool input = .ok p) :
    p.length = 7 ∧ p.Nodup ∧ (∀ c ∈ p, c.isLower = true)
    ∧ p.headI = centerOf input
    ∧ ∀ x, x ∈ p ↔ x ∈ (input.map Char.toLower).dedup := by
  obtain ⟨⟨hne, halpha⟩, hcaps, hlen, hp⟩ := validate_ok_inv input p h
  have hnd : ((input.map Char.toLower).dedup).Nodup := List.nodup_dedup _
  have hcmem : centerOf input ∈ (input.map Char.toLower).dedup := centerOf_mem_dedup input hne
  subst hp
  refine ⟨?_, ?_, ?_, rfl, ?_⟩
  · simp [List.length_erase_of_mem hcmem, hlen]
  · exact List.Nodup.cons (hnd.not_mem_erase) (hnd.erase _)
  · intro c hc
    rcases List.mem_cons.mp hc with rfl | hc2
    · exact lowered_dedup_isLower input halpha _ hcmem
    · exact lowered_dedup_isLower input halpha _ (List.mem_of_mem_erase hc2)
  · intro x
    constructor
    · intro hx
      rcases List.mem_cons.mp hx with rfl | hx2
      · exact hcmem
      · exact List.mem_of_mem_erase hx2
    · intro hx
      by_cases hxc : x = centerOf input
      · exact hxc ▸ List.mem_cons_self _ _
      · exact List.mem_cons_of_mem _ ((hnd.mem_erase_iff).mpr ⟨hxc, hx⟩)

/-- C5: pool validation fails with the invalid-characters error on any input
that is not nonempty alphabetic ASCII, with the ambiguous-center error when
more than one character is uppercase, and with the wrong-count error when the
lowercased input does not have exactly 7 distinct characters; otherwise it
succeeds with a pool whose first letter is the center (the unique uppercase
letter lowered, else the first lowercased character) followed by the other 6
distinct letters. Failures are modelled as `Except.error` (the Python exits
with status 1 before gameplay). -/
theorem validate_letter_pool_spec :
    ∀ input : List Char,
      (¬(input ≠ [] ∧ ∀ c ∈ input, c.isAlpha = true) →
          validate_letter_pool input = .error msgPoolInvalidChars)
      ∧ ((input ≠ [] ∧ ∀ c ∈ input, c.isAlpha = true) →
          1 < (input.filter Char.isUpper).length →
          validate_letter_pool input = .error msgPoolAmbiguous)
      ∧ ((input ≠ [] ∧ ∀ c ∈ input, c.isAlpha = true) →
          (input.filter Char.isUpper).length ≤ 1 →
          (input.map Char.toLower).toFinset.card ≠ 7 →
          validate_letter_pool input = .error msgPoolWrongCount)
      ∧ ((input ≠ [] ∧ ∀ c ∈ input, c.isAlpha = true) →
          (input.filter Char.isUpper).length ≤ 1 →
          (input.map Char.toLower).toFinset.card = 7 →
          ∃ rest, validate_letter_pool input = .ok (centerOf input :: rest)
            ∧ rest.length = 6
            ∧ (centerOf input :: rest).Nodup
            ∧ (centerOf input :: rest).toFinset = (input.map Char.toLower).toFinset) := by
  intro input
  refine ⟨?_, ?_, ?_, ?_⟩
  · intro h1
    unfold validate_letter_pool
    rw [if_pos h1]
  · intro h1 h2
    unfold validate_letter_pool
    rw [if_neg (not_not_intro h1), if_pos h2]
  · intro h1 h2 h3
    rw [List.card_toFinset] at h3
    unfold validate_letter_pool
    rw [if_neg (not_not_intro h1), if_neg (Nat.not_lt.mpr h2), if_pos h3]
  · intro h1 h2 h3
    rw [List.card_toFinset] at h3
    have hok : validate_letter_pool input
        = .ok (centerOf input :: ((input.map Char.toLower).dedup).erase (centerOf input)) := by
      unfold validate_letter_pool
      rw [if_neg (not_not_intro h1), if_neg (Nat.not_lt.mpr h2), if_neg (not_ne_iff.mpr h3)]
    obtain ⟨hlen, hnd, hlow, hhead, hmem⟩ := validate_ok_props input _ hok
    refine ⟨_, hok, ?_, hnd, ?_⟩
    · rw [List.length_erase_of_mem (centerOf_mem_dedup input h1.1), h3]
    · apply Finset.ext
      intro x
      rw [List.mem_toFinset, List.mem_toFinset, hmem x, List.mem_dedup]

/-- Witness for C5: validating "tAserin" succeeds with center a followed by 6
more distinct letters. -/
theorem validate_letter_pool_spec_witness :
    ∃ rest, validate_letter_pool "tAserin".toList = .ok (centerOf "tAserin".toList :: rest)
      ∧ rest.length = 6
      ∧ (centerOf "tAserin".toList :: rest).Nodup
      ∧ (centerOf "tAserin".toList :: rest).toFinset
          = ("tAserin".toList.map Char.toLower).toFinset :=
  (validate_letter_pool_spec "tAserin".toList).2.2.2 (by decide) (by decide) (by decide)

/-- C8: re-validating a pool that validation itself produced succeeds and
yields a pool with the same center letter and the same 7-letter set. -/
theorem validate_letter_pool_idempotent :
    ∀ input p, validate_letter_pool input = .ok p →
      ∃ p2, validate_letter_pool p = .ok p2
        ∧ p2.headI = p.headI ∧ p2.toFinset = p.toFinset := by
  intro input p h
  obtain ⟨hlen, hnd, hlow, hhead, hmem⟩ := validate_ok_props input p h
  rcases p with _ | ⟨a, t⟩
  · simp at hlen
  refine ⟨a :: t, ?_, rfl, rfl⟩
  have halpha : ∀ c ∈ a :: t, c.isAlpha = true :=
    fun c hc => (isAlpha_iff c).mpr (Or.inr (hlow c hc))
  have hnocaps : (a :: t).filter Char.isUpper = [] :=
    List.filter_eq_nil_iff.mpr (fun c hc => by simp [not_isUpper_of_isLower c (hlow c hc)])
  have hmapeq : (a :: t).map Char.toLower = a :: t := by
    rw [show a :: t = (a :: t).map id from (List.map_id _).symm]
    simp only [List.map_map]
    exact List.map_congr_left (fun c hc => by simp [toLower_of_isLower c (hlow c hc)])
  have hdedup : (a :: t).dedup = a :: t := List.Nodup.dedup hnd
  have hcenter : centerOf (a :: t) = a := by
    unfold centerOf
    rw [hnocaps, hmapeq]
    rfl
  have h2 : ¬(1 < ((a :: t).filter Char.isUpper).length) := by
    rw [hnocaps]
    simp
  have h3 : ¬((((a :: t).map Char.toLower).dedup).length ≠ 7) := by
    rw [hmapeq, hdedup]
    omega
  unfold validate_letter_pool
  rw [if_neg (not_not_intro ⟨List.cons_ne_nil a t, halpha⟩), if_neg h2, if_neg h3]
  rw [hcenter, hmapeq, hdedup, List.erase_cons_head]

/-- Witness for C8: "atserin", the output of validating "tAserin",
re-validates to a pool with the same center and letter set. -/
theorem validate_letter_pool_idempotent_witness :
    ∃ p2, validate_letter_pool "atserin".toList = .ok p2
      ∧ p2.headI = "atserin".toList.headI
      ∧ p2.toFinset = "atserin".toList.toFinset :=
  validate_letter_pool_idempotent "tAserin".toList "atserin".toList (by decide)

/-- The LetterPool invariant: exactly 7 distinct lowercase letters, the center
being the one at position 0. -/
def poolInv (p : List Char) : Prop :=
  p.length = 7 ∧ p.Nodup ∧ ∀ c ∈ p, c.isLower = true

instance (p : List Char) : Decidable (poolInv p) := by
  unfold poolInv
  infer_instance

lemma generate_ok_inv (dict : List (List Char)) (pick : Nat) (samp : List Char → List Char)
    (p : List Char) (h : generate_letter_pool dict pick samp = some p) :
    ∃ cand, p = samp cand ∧ cand.Nodup ∧ cand.length = 7 ∧ ∀ c ∈ cand, c.isLower = true := by
  unfold generate_letter_pool at h
  rcases hg : ((readLines dict).filterMap poolCandidate)[pick]? with _ | cand
  · rw [hg] at h
    exact Option.noConfusion h
  rw [hg] at h
  have hp : p = samp cand := (Option.some.inj h).symm
  have hcand : cand ∈ (readLines dict).filterMap poolCandidate := List.getElem?_mem hg
  obtain ⟨word, hwmem, hw⟩ := List.mem_filterMap.mp hcand
  unfold poolCandidate at hw
  by_cases c1 : word.length < 7
  · rw [if_pos c1] at hw
    exact Option.noConfusion hw
  rw [if_neg c1] at hw
  by_cases c2 : word.dedup.length ≠ 7
  · rw [if_pos c2] at hw
    exact Option.noConfusion hw
  rw [if_neg c2] at hw
  by_cases c3 : hasVowelY word = false
  · rw [if_pos c3] at hw
    exact Option.noConfusion hw
  rw [if_neg c3] at hw
  by_cases c4 : ¬(∀ c ∈ word, c.isLower = true)
  · rw [if_pos c4] at hw
    exact Option.noConfusion hw
  rw [if_neg c4] at hw
  have hcd : word.dedup = cand := Option.some.inj hw
  refine ⟨cand, hp, ?_, ?_, ?_⟩
  · rw [← hcd]
    exact List.nodup_dedup word
  · rw [← hcd]
    exact not_ne_iff.mp c2
  · intro c hc
    rw [← hcd, List.mem_dedup] at hc
    exact not_not.mp c4 c hc

lemma shuffle_pool_props (p sp : List Char) (hs : sp.Perm p.tail) (hinv : poolInv p) :
    poolInv (p.headI :: sp) ∧ (p.headI :: sp).headI = p.headI
      ∧ (p.headI :: sp).toFinset = p.toFinset := by
  obtain ⟨hlen, hnd, hlow⟩ := hinv
  rcases p with _ | ⟨a, t⟩
  · simp at hlen
  simp only [List.headI_cons, List.tail_cons] at hs ⊢
  have hndt : t.Nodup := (List.nodup_cons.mp hnd).2
  have hant : a ∉ t := (List.nodup_cons.mp hnd).1
  have htlen : t.length = 6 := by simpa using hlen
  refine ⟨⟨?_, ?_, ?_⟩, by trivial, ?_⟩
  · simp [hs.length_eq, htlen]
  · rw [List.nodup_cons]
    exact ⟨fun hc => hant (hs.mem_iff.mp hc), (hs.nodup_iff).mpr hndt⟩
  · intro c hc
    rcases List.mem_cons.mp hc with rfl | hc2
    · exact hlow c (List.mem_cons_self _ _)
    · exact hlow c (List.mem_cons_of_mem _ (hs.mem_iff.mp hc2))
  · have hft := List.toFinset_eq_of_perm _ _ hs
    simp [List.toFinset_cons, hft]

/-- C9: every validated and every generated pool consists of exactly 7
distinct lowercase letters with the center at position 0, and every loop
iteration (in particular shuffle, which only permutes the 6 petal letters)
preserves the invariant, the center letter and the pool letter set. -/
theorem letter_pool_invariant :
    (∀ input p, validate_letter_pool input = .ok p → poolInv p)
    ∧ (∀ dict pick samp p, (∀ l, (samp l).Perm l) →
        generate_letter_pool dict pick samp = some p → poolInv p)
    ∧ (∀ g raw samp, (∀ l : List Char, (samp l).Perm l) → poolInv g.letter_pool →
        poolInv ((loopStep g raw samp).1).letter_pool
        ∧ ((loopStep g raw samp).1).letter_pool.headI = g.letter_pool.headI
        ∧ ((loopStep g raw samp).1).letter_pool.toFinset = g.letter_pool.toFinset) := by
  refine ⟨?_, ?_, ?_⟩
  · intro input p h
    obtain ⟨hlen, hnd, hlow, -, -⟩ := validate_ok_props input p h
    exact ⟨hlen, hnd, hlow⟩
  · intro dict pick samp p hsamp h
    obtain ⟨cand, hp, hnd, hlen, hlow⟩ := generate_ok_inv dict pick samp p h
    have hs : (samp cand).Perm cand := hsamp cand
    subst hp
    refine ⟨by rw [hs.length_eq, hlen], (hs.nodup_iff).mpr hnd, ?_⟩
    intro c hc
    exact hlow c (hs.mem_iff.mp hc)
  · intro g raw samp hsamp hinv
    unfold loopStep execute_command
    rcases hr : resolveCommand COMMANDS ((raw.map Char.toLower).tail) with _ | cs | n <;>
      simp only [hr] <;> (repeat' split) <;>
      first
        | exact ⟨hinv, rfl, rfl⟩
        | exact shuffle_pool_props g.letter_pool (samp g.letter_pool.tail)
            (hsamp g.letter_pool.tail) hinv

/-- Witness for C9: the pool validated from "taserin" satisfies the
invariant. -/
theorem letter_pool_invariant_witness : poolInv "taserin".toList :=
  letter_pool_invariant.1 "taserin".toList "taserin".toList (by decide)

end SpellB
